import Mathlib

/-!
Verification of the `BlockCipher` binding in `src/botan/src/block.rs` against
its specification. The Rust file is a thin wrapper over an external native
block-cipher engine (the `botan_block_cipher_*` calls); the wrapper's own
logic (length validation, copy-then-in-place convenience functions, cached
block size and key spec) is embedded directly from the source, while the
native engine, absent from the repository's sources, is modelled from the
specification's engine contract (spec §3, §4.1).

Bytes are modelled as lists of `Fin 256`.
-/

namespace Botan

abbrev Byte := Fin 256

abbrev Bytes := List Byte

/-- Error taxonomy of the specification (spec §7). The Rust source raises
`ErrorType::InvalidInput` with message "Invalid input size" for misaligned
buffers; the spec names that error `InvalidInputLength`, and this model uses
the spec's names for the whole taxonomy. -/
inductive ErrorType where
  | UnknownAlgorithm
  | InvalidKeyLength
  | NoKeySet
  | InvalidInputLength
deriving DecidableEq, Repr

/-- Modelled from the spec: the algorithm-agnostic engine contract that each
concrete cipher of the native library (absent from src/) must satisfy — a
keyed, fixed-blocksize invertible per-block transform (spec §1, §3, glossary),
with a key-schedule derivation (spec §3 `key_schedule_state`), a positive
block size (spec §3 `block_size_bytes`), and a key spec {min, max, step}. -/
structure Algo where
  blockSize : Nat
  minKeylen : Nat
  maxKeylen : Nat
  modKeylen : Nat
  deriveSchedule : Bytes → Bytes
  encBlock : Bytes → Bytes → Bytes
  decBlock : Bytes → Bytes → Bytes
  blockSize_pos : 0 < blockSize
  encBlock_len : ∀ sched b, b.length = blockSize → (encBlock sched b).length = blockSize
  decBlock_len : ∀ sched b, b.length = blockSize → (decBlock sched b).length = blockSize
  dec_enc : ∀ sched b, b.length = blockSize → decBlock sched (encBlock sched b) = b

/-- ECB-style transformation of `n` consecutive blocks of width `bs`:
each block is transformed independently, in block order, with no state
carried between blocks (spec §4.1 `encrypt_in_place`). -/
def mapBlocks (f : Bytes → Bytes) (bs : Nat) : Nat → Bytes → Bytes
  | 0, buf => buf
  | n + 1, buf => f (buf.take bs) ++ mapBlocks f bs n (buf.drop bs)

/-- Validity of a key length against an algorithm's key spec
(spec §3: valid key lengths are `min + n*step <= max` for integer `n >= 0`,
i.e. `min <= len <= max` and `(len - min) % step == 0`). -/
def keyLenOk (A : Algo) (len : Nat) : Bool :=
  decide (A.minKeylen ≤ len) && decide (len ≤ A.maxKeylen) &&
    ((len - A.minKeylen) % A.modKeylen == 0)

/-- Modelled from the spec: the native `botan_block_cipher_set_key` call,
absent from src/. Validates the key length against the key spec, failing
with `InvalidKeyLength` otherwise; on valid length derives the schedule
(spec §4.1 `set_key`). -/
def ffiSetKey (A : Algo) (key : Bytes) : Except ErrorType Bytes :=
  if keyLenOk A key.length then .ok (A.deriveSchedule key)
  else .error .InvalidKeyLength

/-- Modelled from the spec: the native `botan_block_cipher_encrypt_blocks`
call, absent from src/. Fails with `NoKeySet` when no schedule is installed
(spec §3 invariant, §4.1); otherwise transforms `n` blocks ECB-style. -/
def ffiEncryptBlocks (A : Algo) (ks : Option Bytes) (buf : Bytes) (n : Nat) :
    Except ErrorType Bytes :=
  match ks with
  | none => .error .NoKeySet
  | some sched => .ok (mapBlocks (A.encBlock sched) A.blockSize n buf)

/-- Modelled from the spec: the native `botan_block_cipher_decrypt_blocks`
call, absent from src/; mirror of encryption with the inverse transform
(spec §4.1 `decrypt_in_place`). -/
def ffiDecryptBlocks (A : Algo) (ks : Option Bytes) (buf : Bytes) (n : Nat) :
    Except ErrorType Bytes :=
  match ks with
  | none => .error .NoKeySet
  | some sched => .ok (mapBlocks (A.decBlock sched) A.blockSize n buf)

/-- Modelled from the spec: the native `botan_block_cipher_clear` call,
absent from src/. Wipes the key schedule, transitions the engine back to the
unkeyed state and always succeeds (spec §4.1 `clear`, state machine). -/
def ffiClear : Except ErrorType (Option Bytes) := .ok none

/-- The Rust `BlockCipher` struct (block.rs lines 8-14): an opaque engine
handle together with the block size and key-spec bounds cached at
construction. The opaque native object is modelled by the algorithm it runs
plus its current key-schedule state. -/
structure BlockCipher where
  algo : Algo
  block_size : Nat
  min_keylen : Nat
  max_keylen : Nat
  mod_keylen : Nat
  key_schedule : Option Bytes

namespace BlockCipher

/-- Rust `BlockCipher::new` (block.rs lines 29-50), success path: caches the block
size and key spec queried from the engine and starts with no key installed. -/
def new (A : Algo) : BlockCipher :=
  { algo := A
    block_size := A.blockSize
    min_keylen := A.minKeylen
    max_keylen := A.maxKeylen
    mod_keylen := A.modKeylen
    key_schedule := none }

/-- Rust `BlockCipher::block_size` (block.rs lines 60-62): returns the cached
block size, always succeeding. -/
def block_size_fn (c : BlockCipher) : Except ErrorType Nat :=
  .ok c.block_size

/-- Rust `BlockCipher::set_key` (block.rs lines 97-104): forwards the raw key to
the native engine; the model returns the operation's result together with
the engine state after the call. -/
def set_key (c : BlockCipher) (key : Bytes) : Except ErrorType Unit × BlockCipher :=
  match ffiSetKey c.algo key with
  | .ok sched => (.ok (), { c with key_schedule := some sched })
  | .error e => (.error e, c)

/-- Rust `BlockCipher::encrypt_in_place` (block.rs lines 137-154): rejects buffers
whose length is not a multiple of the cached block size, then hands
`buf.len() / block_size` blocks to the native engine. Returns the result
together with the buffer after the call; the engine itself is taken by
shared reference (`&self`) and cannot change. -/
def encrypt_in_place (c : BlockCipher) (buf : Bytes) :
    Except ErrorType Unit × Bytes :=
  if buf.length % c.block_size ≠ 0 then
    (.error .InvalidInputLength, buf)
  else
    match ffiEncryptBlocks c.algo c.key_schedule buf (buf.length / c.block_size) with
    | .ok out => (.ok (), out)
    | .error e => (.error e, buf)

/-- Rust `BlockCipher::encrypt_blocks` (block.rs lines 125-129): copies the input,
encrypts the copy in place, and returns it; the caller's buffer is untouched. -/
def encrypt_blocks (c : BlockCipher) (input : Bytes) : Except ErrorType Bytes :=
  match c.encrypt_in_place input with
  | (.ok _, ivec) => .ok ivec
  | (.error e, _) => .error e

/-- Rust `BlockCipher::decrypt_in_place` (block.rs lines 187-204): mirror of
`encrypt_in_place` with the inverse transform. -/
def decrypt_in_place (c : BlockCipher) (buf : Bytes) :
    Except ErrorType Unit × Bytes :=
  if buf.length % c.block_size ≠ 0 then
    (.error .InvalidInputLength, buf)
  else
    match ffiDecryptBlocks c.algo c.key_schedule buf (buf.length / c.block_size) with
    | .ok out => (.ok (), out)
    | .error e => (.error e, buf)

/-- Rust `BlockCipher::decrypt_blocks` (block.rs lines 175-179): copies the input,
decrypts the copy in place, and returns it. -/
def decrypt_blocks (c : BlockCipher) (input : Bytes) : Except ErrorType Bytes :=
  match c.decrypt_in_place input with
  | (.ok _, ivec) => .ok ivec
  | (.error e, _) => .error e

/-- Rust `BlockCipher::clear` (block.rs lines 218-220): asks the engine to wipe
its key schedule. -/
def clear (c : BlockCipher) : Except ErrorType Unit × BlockCipher :=
  match ffiClear with
  | .ok ks => (.ok (), { c with key_schedule := ks })
  | .error e => (.error e, c)

end BlockCipher

/-- Coherence of the cached fields with the engine behind the handle: `new`
establishes this and no operation breaks it. -/
def WF (c : BlockCipher) : Prop :=
  c.block_size = c.algo.blockSize ∧ c.min_keylen = c.algo.minKeylen ∧
    c.max_keylen = c.algo.maxKeylen ∧ c.mod_keylen = c.algo.modKeylen

instance (c : BlockCipher) : Decidable (WF c) := by
  unfold WF; infer_instance

/-- An engine freshly constructed for `A` and keyed with `k`. -/
def keyedEngine (A : Algo) (k : Bytes) : BlockCipher :=
  ((BlockCipher.new A).set_key k).2

/-- Per-block transform of the conformance test cipher: add the first
schedule byte to every byte of the block. -/
def testEncBlock (sched b : Bytes) : Bytes :=
  b.map (fun x => x + sched.headD 0)

/-- Inverse per-block transform of the conformance test cipher. -/
def testDecBlock (sched b : Bytes) : Bytes :=
  b.map (fun x => x - sched.headD 0)

/-- Modelled from the spec: a minimal reference cipher used for conformance
testing (spec §2), with 4-byte blocks and key lengths 4, 6 or 8 bytes
(key spec {4, 8, 2}); its schedule is the raw key itself. -/
def testCipher : Algo where
  blockSize := 4
  minKeylen := 4
  maxKeylen := 8
  modKeylen := 2
  deriveSchedule := id
  encBlock := testEncBlock
  decBlock := testDecBlock
  blockSize_pos := by decide
  encBlock_len := by
    intro sched b h
    simpa [testEncBlock] using h
  decBlock_len := by
    intro sched b h
    simpa [testDecBlock] using h
  dec_enc := by
    intro sched b h
    clear h
    induction b with
    | nil => rfl
    | cons x xs ih =>
        simp only [testEncBlock, testDecBlock, List.map_cons] at *
        rw [add_sub_cancel_right]
        exact congrArg (x :: ·) ih

/-- A concrete test key of valid length 4. -/
def tKey : Bytes := [1, 2, 3, 4]

/-- A concrete one-block test plaintext. -/
def tP : Bytes := [5, 6, 7, 8]

/-- A freshly constructed, unkeyed test engine. -/
def tc0 : BlockCipher := BlockCipher.new testCipher

/-- The test engine keyed with `tKey`. -/
def tcK : BlockCipher := keyedEngine testCipher tKey

/-- The test engine after keying, one encryption and `clear()`. -/
def tcCleared : BlockCipher := tcK.clear.2

deriving instance DecidableEq for Except

theorem take_append_of_len (l₁ l₂ : List Byte) (bs : Nat) (h : l₁.length = bs) :
    (l₁ ++ l₂).take bs = l₁ := by
  subst h; exact List.take_left l₁ l₂

theorem drop_append_of_len (l₁ l₂ : List Byte) (bs : Nat) (h : l₁.length = bs) :
    (l₁ ++ l₂).drop bs = l₂ := by
  subst h; exact List.drop_left l₁ l₂

/-- A length-preserving per-block transform keeps the total length of an
aligned buffer. -/
theorem mapBlocks_length (f : Bytes → Bytes) (bs : Nat)
    (hf : ∀ b, b.length = bs → (f b).length = bs) :
    ∀ (n : Nat) (buf : Bytes), buf.length = n * bs →
      (mapBlocks f bs n buf).length = n * bs := by
  intro n
  induction n with
  | zero => intro buf h; simpa [mapBlocks] using h
  | succ n ih =>
      intro buf h
      have hbs : bs ≤ buf.length := by rw [h, Nat.succ_mul]; omega
      have htake : (buf.take bs).length = bs := by
        rw [List.length_take]; omega
      have hdrop : (buf.drop bs).length = n * bs := by
        rw [List.length_drop, h, Nat.succ_mul]; omega
      simp only [mapBlocks, List.length_append, hf _ htake, ih _ hdrop, Nat.succ_mul]
      omega

/-- Blockwise application of `g` undoes blockwise application of `f` when `g`
inverts `f` on full blocks. -/
theorem mapBlocks_inverse (f g : Bytes → Bytes) (bs : Nat)
    (hf : ∀ b, b.length = bs → (f b).length = bs)
    (hgf : ∀ b, b.length = bs → g (f b) = b) :
    ∀ (n : Nat) (buf : Bytes), buf.length = n * bs →
      mapBlocks g bs n (mapBlocks f bs n buf) = buf := by
  intro n
  induction n with
  | zero => intro buf h; simp [mapBlocks]
  | succ n ih =>
      intro buf h
      have hbs : bs ≤ buf.length := by rw [h, Nat.succ_mul]; omega
      have htake : (buf.take bs).length = bs := by
        rw [List.length_take]; omega
      have hdrop : (buf.drop bs).length = n * bs := by
        rw [List.length_drop, h, Nat.succ_mul]; omega
      have hflen : (f (buf.take bs)).length = bs := hf _ htake
      show g ((f (buf.take bs) ++ mapBlocks f bs n (buf.drop bs)).take bs) ++
        mapBlocks g bs n ((f (buf.take bs) ++ mapBlocks f bs n (buf.drop bs)).drop bs) = buf
      rw [take_append_of_len _ _ _ hflen, drop_append_of_len _ _ _ hflen,
        hgf _ htake, ih _ hdrop, List.take_append_drop]

/-- Block `i` of a blockwise-transformed aligned buffer is the transform of
block `i` of the input: no state flows between blocks. -/
theorem mapBlocks_block (f : Bytes → Bytes) (bs : Nat)
    (hf : ∀ b, b.length = bs → (f b).length = bs) :
    ∀ (n : Nat) (buf : Bytes), buf.length = n * bs →
      ∀ i, i < n →
        ((mapBlocks f bs n buf).drop (i * bs)).take bs
          = f ((buf.drop (i * bs)).take bs) := by
  intro n
  induction n with
  | zero => intro buf h i hi; omega
  | succ n ih =>
      intro buf h i hi
      have hbs : bs ≤ buf.length := by rw [h, Nat.succ_mul]; omega
      have htake : (buf.take bs).length = bs := by
        rw [List.length_take]; omega
      have hdrop : (buf.drop bs).length = n * bs := by
        rw [List.length_drop, h, Nat.succ_mul]; omega
      have hflen : (f (buf.take bs)).length = bs := hf _ htake
      show ((f (buf.take bs) ++ mapBlocks f bs n (buf.drop bs)).drop (i * bs)).take bs
        = f ((buf.drop (i * bs)).take bs)
      cases i with
      | zero =>
          simp only [Nat.zero_mul, List.drop_zero]
          rw [take_append_of_len _ _ _ hflen]
      | succ i =>
          have h1 : (i + 1) * bs = bs + i * bs := by rw [Nat.succ_mul]; omega
          have h2 : ∀ l : Bytes, l.drop ((i + 1) * bs) = (l.drop bs).drop (i * bs) := by
            intro l; rw [List.drop_drop, h1, Nat.add_comm]
          rw [h2, h2, drop_append_of_len _ _ _ hflen]
          exact ih _ hdrop i (by omega)

theorem set_key_of_valid (c : BlockCipher) (key : Bytes)
    (h : keyLenOk c.algo key.length = true) :
    c.set_key key = (.ok (), { c with key_schedule := some (c.algo.deriveSchedule key) }) := by
  simp [BlockCipher.set_key, ffiSetKey, h]

theorem keyedEngine_eq (A : Algo) (k : Bytes) (h : keyLenOk A k.length = true) :
    keyedEngine A k =
      { algo := A
        block_size := A.blockSize
        min_keylen := A.minKeylen
        max_keylen := A.maxKeylen
        mod_keylen := A.modKeylen
        key_schedule := some (A.deriveSchedule k) } := by
  unfold keyedEngine
  rw [set_key_of_valid (BlockCipher.new A) k h]
  rfl

theorem encrypt_in_place_keyed (c : BlockCipher) (buf sched : Bytes)
    (hks : c.key_schedule = some sched) (hal : buf.length % c.block_size = 0) :
    c.encrypt_in_place buf =
      (.ok (), mapBlocks (c.algo.encBlock sched) c.algo.blockSize
        (buf.length / c.block_size) buf) := by
  simp [BlockCipher.encrypt_in_place, hal, ffiEncryptBlocks, hks]

theorem decrypt_in_place_keyed (c : BlockCipher) (buf sched : Bytes)
    (hks : c.key_schedule = some sched) (hal : buf.length % c.block_size = 0) :
    c.decrypt_in_place buf =
      (.ok (), mapBlocks (c.algo.decBlock sched) c.algo.blockSize
        (buf.length / c.block_size) buf) := by
  simp [BlockCipher.decrypt_in_place, hal, ffiDecryptBlocks, hks]

/-- C1: on an engine keyed with any valid key, decrypting the encryption of a
block-aligned plaintext returns the plaintext, both for the copying variants
(`decrypt_blocks (encrypt_blocks p) = p`) and for the in-place variants. -/
theorem C1_round_trip (A : Algo) (k p : Bytes)
    (hk : keyLenOk A k.length = true) (hp : p.length % A.blockSize = 0) :
    (∃ ct, (keyedEngine A k).encrypt_blocks p = .ok ct ∧
        (keyedEngine A k).decrypt_blocks ct = .ok p) ∧
    (keyedEngine A k).decrypt_in_place ((keyedEngine A k).encrypt_in_place p).2
      = (.ok (), p) := by
  rw [keyedEngine_eq A k hk]
  set c : BlockCipher :=
    { algo := A
      block_size := A.blockSize
      min_keylen := A.minKeylen
      max_keylen := A.maxKeylen
      mod_keylen := A.modKeylen
      key_schedule := some (A.deriveSchedule k) } with hc
  set sched := A.deriveSchedule k with hsched
  set n := p.length / A.blockSize with hn
  have hlen : p.length = n * A.blockSize :=
    (Nat.div_mul_cancel (Nat.dvd_of_mod_eq_zero hp)).symm
  set ct := mapBlocks (A.encBlock sched) A.blockSize n p with hct
  have hctlen : ct.length = n * A.blockSize :=
    mapBlocks_length _ _ (A.encBlock_len sched) n p hlen
  have hctal : ct.length % A.blockSize = 0 := by
    rw [hctlen]; exact Nat.mul_mod_left n A.blockSize
  have hctn : ct.length / A.blockSize = n := by
    rw [hctlen]; exact Nat.mul_div_cancel n A.blockSize_pos
  have henc : c.encrypt_in_place p = (.ok (), ct) :=
    encrypt_in_place_keyed c p sched rfl hp
  have hdec : c.decrypt_in_place ct = (.ok (), p) := by
    rw [decrypt_in_place_keyed c ct sched rfl hctal]
    rw [show c.algo = A from rfl, show c.block_size = A.blockSize from rfl, hctn]
    exact congrArg (Prod.mk _)
      (mapBlocks_inverse _ _ _ (A.encBlock_len sched) (A.dec_enc sched) n p hlen)
  refine ⟨⟨ct, ?_, ?_⟩, ?_⟩
  · simp [BlockCipher.encrypt_blocks, henc]
  · simp [BlockCipher.decrypt_blocks, hdec]
  · rw [henc]; exact hdec

/-- C1 witness at the test cipher, key `tKey`, plaintext `tP`. -/
theorem C1_round_trip_witness :
    (∃ ct, (keyedEngine testCipher tKey).encrypt_blocks tP = .ok ct ∧
        (keyedEngine testCipher tKey).decrypt_blocks ct = .ok tP) ∧
    (keyedEngine testCipher tKey).decrypt_in_place
      ((keyedEngine testCipher tKey).encrypt_in_place tP).2 = (.ok (), tP) :=
  C1_round_trip testCipher tKey tP (by decide) (by decide)

/-- C2: both in-place operations fail with `InvalidInputLength` on a
misaligned buffer and with `NoKeySet` on an aligned buffer of an unkeyed
engine, returning the buffer unchanged in either case; the engine is taken
by shared reference and cannot change. -/
theorem C2_error_cases (c : BlockCipher) (buf : Bytes) :
    (buf.length % c.block_size ≠ 0 →
      c.encrypt_in_place buf = (.error .InvalidInputLength, buf) ∧
      c.decrypt_in_place buf = (.error .InvalidInputLength, buf)) ∧
    (c.key_schedule = none → buf.length % c.block_size = 0 →
      c.encrypt_in_place buf = (.error .NoKeySet, buf) ∧
      c.decrypt_in_place buf = (.error .NoKeySet, buf)) := by
  constructor
  · intro h
    constructor <;>
      simp [BlockCipher.encrypt_in_place, BlockCipher.decrypt_in_place, h]
  · intro hks hal
    constructor <;>
      simp [BlockCipher.encrypt_in_place, BlockCipher.decrypt_in_place, hal,
        ffiEncryptBlocks, ffiDecryptBlocks, hks]

/-- C2 witness: the unkeyed test engine on a misaligned and on an aligned
buffer. -/
theorem C2_error_cases_witness :
    (tc0.encrypt_in_place [0] = (.error .InvalidInputLength, [0]) ∧
      tc0.decrypt_in_place [0] = (.error .InvalidInputLength, [0])) ∧
    (tc0.encrypt_in_place [0, 0, 0, 0] = (.error .NoKeySet, [0, 0, 0, 0]) ∧
      tc0.decrypt_in_place [0, 0, 0, 0] = (.error .NoKeySet, [0, 0, 0, 0])) :=
  ⟨(C2_error_cases tc0 [0]).1 (by decide),
    (C2_error_cases tc0 [0, 0, 0, 0]).2 rfl (by decide)⟩

/-- C3: on a well-formed engine, `set_key` succeeds exactly when the key
length satisfies the cached key spec, and on an invalid length it fails with
`InvalidKeyLength` leaving the engine (in particular any installed schedule)
unchanged. -/
theorem C3_set_key (c : BlockCipher) (key : Bytes) (hwf : WF c) :
    ((c.set_key key).1 = .ok () ↔
      (c.min_keylen ≤ key.length ∧ key.length ≤ c.max_keylen ∧
        (key.length - c.min_keylen) % c.mod_keylen = 0)) ∧
    (¬(c.min_keylen ≤ key.length ∧ key.length ≤ c.max_keylen ∧
        (key.length - c.min_keylen) % c.mod_keylen = 0) →
      c.set_key key = (.error .InvalidKeyLength, c)) := by
  obtain ⟨h1, h2, h3, h4⟩ := hwf
  have hiff : keyLenOk c.algo key.length = true ↔
      (c.min_keylen ≤ key.length ∧ key.length ≤ c.max_keylen ∧
        (key.length - c.min_keylen) % c.mod_keylen = 0) := by
    simp [keyLenOk, ← h2, ← h3, ← h4, Bool.and_eq_true, decide_eq_true_iff,
      beq_iff_eq, and_assoc]
  by_cases h : keyLenOk c.algo key.length = true
  · refine ⟨?_, fun hn => absurd (hiff.mp h) hn⟩
    simp [BlockCipher.set_key, ffiSetKey, h, hiff.mp h]
  · have hne : ¬(c.min_keylen ≤ key.length ∧ key.length ≤ c.max_keylen ∧
        (key.length - c.min_keylen) % c.mod_keylen = 0) := fun hq => h (hiff.mpr hq)
    refine ⟨?_, fun _ => ?_⟩ <;>
      simp [BlockCipher.set_key, ffiSetKey, h, hne]

/-- C3 witness: a failed re-key on the keyed test engine leaves it unchanged,
and a valid key length succeeds. -/
theorem C3_set_key_witness :
    tcK.set_key [0, 0, 0] = (.error .InvalidKeyLength, tcK) ∧
    (tcK.set_key tKey).1 = .ok () :=
  ⟨(C3_set_key tcK [0, 0, 0] (by decide)).2 (by decide),
    ((C3_set_key tcK tKey (by decide)).1).mpr (by decide)⟩

/-- C4: on a keyed engine with an aligned buffer, in-place encryption
succeeds, preserves the length, and output block `i` is the single-block
transform of input block `i` alone, for each of the `buf.length / block_size`
blocks. -/
theorem C4_blockwise (A : Algo) (k buf : Bytes)
    (hk : keyLenOk A k.length = true) (hb : buf.length % A.blockSize = 0) :
    ((keyedEngine A k).encrypt_in_place buf).1 = .ok () ∧
    ((keyedEngine A k).encrypt_in_place buf).2.length = buf.length ∧
    (∀ i, i < buf.length / A.blockSize →
      ((((keyedEngine A k).encrypt_in_place buf).2.drop (i * A.blockSize)).take
          A.blockSize)
        = A.encBlock (A.deriveSchedule k)
            ((buf.drop (i * A.blockSize)).take A.blockSize)) := by
  rw [keyedEngine_eq A k hk]
  set c : BlockCipher :=
    { algo := A
      block_size := A.blockSize
      min_keylen := A.minKeylen
      max_keylen := A.maxKeylen
      mod_keylen := A.modKeylen
      key_schedule := some (A.deriveSchedule k) } with hc
  set sched := A.deriveSchedule k with hsched
  set n := buf.length / A.blockSize with hn
  have hlen : buf.length = n * A.blockSize :=
    (Nat.div_mul_cancel (Nat.dvd_of_mod_eq_zero hb)).symm
  have henc : c.encrypt_in_place buf =
      (.ok (), mapBlocks (A.encBlock sched) A.blockSize n buf) :=
    encrypt_in_place_keyed c buf sched rfl hb
  rw [henc]
  refine ⟨rfl, ?_, ?_⟩
  · rw [mapBlocks_length _ _ (A.encBlock_len sched) n buf hlen, hlen]
  · intro i hi
    exact mapBlocks_block _ _ (A.encBlock_len sched) n buf hlen i hi

/-- C4 witness: a two-block buffer on the keyed test engine; block 1 of the
output is the transform of block 1 of the input. -/
theorem C4_blockwise_witness :
    ((keyedEngine testCipher tKey).encrypt_in_place (tP ++ tP)).1 = .ok () ∧
    ((((keyedEngine testCipher tKey).encrypt_in_place (tP ++ tP)).2.drop
        (1 * testCipher.blockSize)).take testCipher.blockSize)
      = testCipher.encBlock (testCipher.deriveSchedule tKey)
          (((tP ++ tP).drop (1 * testCipher.blockSize)).take testCipher.blockSize) :=
  ⟨(C4_blockwise testCipher tKey (tP ++ tP) (by decide) (by decide)).1,
    (C4_blockwise testCipher tKey (tP ++ tP) (by decide) (by decide)).2.2 1
      (by decide)⟩

theorem encrypt_blocks_ok_length (c : BlockCipher) (input out : Bytes)
    (hwf : WF c) (hok : c.encrypt_blocks input = .ok out) :
    out.length = input.length := by
  by_cases hal : input.length % c.block_size = 0
  · cases hks : c.key_schedule with
    | none =>
        simp [BlockCipher.encrypt_blocks, BlockCipher.encrypt_in_place, hal,
          ffiEncryptBlocks, hks] at hok
    | some sched =>
        have he := encrypt_in_place_keyed c input sched hks hal
        have hout : out = mapBlocks (c.algo.encBlock sched) c.algo.blockSize
            (input.length / c.block_size) input := by
          simp [BlockCipher.encrypt_blocks, he] at hok
          exact hok.symm
        obtain ⟨h1, _, _, _⟩ := hwf
        subst hout
        have hlen : input.length = (input.length / c.block_size) * c.algo.blockSize := by
          rw [← h1]
          exact (Nat.div_mul_cancel (Nat.dvd_of_mod_eq_zero hal)).symm
        rw [mapBlocks_length _ _ (c.algo.encBlock_len sched) _ input hlen, ← hlen]
  · simp [BlockCipher.encrypt_blocks, BlockCipher.encrypt_in_place, hal] at hok

theorem decrypt_blocks_ok_length (c : BlockCipher) (input out : Bytes)
    (hwf : WF c) (hok : c.decrypt_blocks input = .ok out) :
    out.length = input.length := by
  by_cases hal : input.length % c.block_size = 0
  · cases hks : c.key_schedule with
    | none =>
        simp [BlockCipher.decrypt_blocks, BlockCipher.decrypt_in_place, hal,
          ffiDecryptBlocks, hks] at hok
    | some sched =>
        have he := decrypt_in_place_keyed c input sched hks hal
        have hout : out = mapBlocks (c.algo.decBlock sched) c.algo.blockSize
            (input.length / c.block_size) input := by
          simp [BlockCipher.decrypt_blocks, he] at hok
          exact hok.symm
        obtain ⟨h1, _, _, _⟩ := hwf
        subst hout
        have hlen : input.length = (input.length / c.block_size) * c.algo.blockSize := by
          rw [← h1]
          exact (Nat.div_mul_cancel (Nat.dvd_of_mod_eq_zero hal)).symm
        rw [mapBlocks_length _ _ (c.algo.decBlock_len sched) _ input hlen, ← hlen]
  · simp [BlockCipher.decrypt_blocks, BlockCipher.decrypt_in_place, hal] at hok

/-- C5: the copying variants return exactly the buffer that the in-place
variants produce on a copy of the input, succeeding and failing with the
same errors; the caller's input value is never changed. -/
theorem C5_wrapper_equiv (c : BlockCipher) (input : Bytes) :
    ((c.encrypt_in_place input).1 = .ok () →
      c.encrypt_blocks input = .ok (c.encrypt_in_place input).2) ∧
    (∀ e, (c.encrypt_in_place input).1 = .error e ↔
      c.encrypt_blocks input = .error e) ∧
    ((c.decrypt_in_place input).1 = .ok () →
      c.decrypt_blocks input = .ok (c.decrypt_in_place input).2) ∧
    (∀ e, (c.decrypt_in_place input).1 = .error e ↔
      c.decrypt_blocks input = .error e) := by
  rcases he : c.encrypt_in_place input with ⟨r, buf⟩
  rcases hd : c.decrypt_in_place input with ⟨r2, buf2⟩
  refine ⟨?_, ?_, ?_, ?_⟩
  · intro h
    cases r with
    | ok u => simp [BlockCipher.encrypt_blocks, he]
    | error e => exact absurd h (by simp)
  · intro e
    cases r with
    | ok u => simp [BlockCipher.encrypt_blocks, he]
    | error e2 => simp [BlockCipher.encrypt_blocks, he]
  · intro h
    cases r2 with
    | ok u => simp [BlockCipher.decrypt_blocks, hd]
    | error e => exact absurd h (by simp)
  · intro e
    cases r2 with
    | ok u => simp [BlockCipher.decrypt_blocks, hd]
    | error e2 => simp [BlockCipher.decrypt_blocks, hd]

/-- C5 witness at the keyed test engine. -/
theorem C5_wrapper_equiv_witness :
    tcK.encrypt_blocks tP = .ok (tcK.encrypt_in_place tP).2 ∧
    tcK.decrypt_blocks tP = .ok (tcK.decrypt_in_place tP).2 :=
  ⟨(C5_wrapper_equiv tcK tP).1 (by decide),
    (C5_wrapper_equiv tcK tP).2.2.1 (by decide)⟩

/-- C6 (amended): `clear` always succeeds and leaves the engine unkeyed, a
second `clear` changes nothing, and after `clear` the copying encryption on
any block-aligned buffer fails with `NoKeySet`. -/
theorem C6_clear_props (c : BlockCipher) (buf : Bytes) :
    c.clear.1 = .ok () ∧
    c.clear.2.key_schedule = none ∧
    c.clear.2.clear = c.clear ∧
    (buf.length % c.block_size = 0 →
      c.clear.2.encrypt_blocks buf = .error .NoKeySet) := by
  refine ⟨rfl, rfl, rfl, ?_⟩
  intro hal
  simp [BlockCipher.clear, ffiClear, BlockCipher.encrypt_blocks,
    BlockCipher.encrypt_in_place, ffiEncryptBlocks, hal]

/-- C6 witness: the keyed test engine after `clear`. -/
theorem C6_clear_props_witness :
    tcK.clear.1 = .ok () ∧
    tcK.clear.2.key_schedule = none ∧
    tcK.clear.2.clear = tcK.clear ∧
    tcK.clear.2.encrypt_blocks tP = .error .NoKeySet :=
  ⟨(C6_clear_props tcK tP).1, (C6_clear_props tcK tP).2.1,
    (C6_clear_props tcK tP).2.2.1, (C6_clear_props tcK tP).2.2.2 (by decide)⟩

/-- C6 counterexample: on the cleared test engine a buffer of length 1 (not
block-aligned) fails with `InvalidInputLength`, not `NoKeySet`, so after
`clear` not every buffer fails with `NoKeySet`. -/
theorem C6_clear_counterexample :
    tcCleared.encrypt_blocks [0] = .error .InvalidInputLength ∧
    tcCleared.encrypt_blocks [0] ≠ .error .NoKeySet := by
  decide

/-- C7: on a keyed engine whose block size exceeds 1, in-place encryption of
the empty buffer succeeds and leaves it empty, and any buffer of length
`block_size - 1` fails with `InvalidInputLength` unchanged. -/
theorem C7_boundary (A : Algo) (k : Bytes) (hk : keyLenOk A k.length = true)
    (hbs : 1 < A.blockSize) :
    (keyedEngine A k).encrypt_in_place [] = (.ok (), ([] : Bytes)) ∧
    (∀ buf : Bytes, buf.length = A.blockSize - 1 →
      (keyedEngine A k).encrypt_in_place buf
        = (.error .InvalidInputLength, buf)) := by
  rw [keyedEngine_eq A k hk]
  constructor
  · simp [BlockCipher.encrypt_in_place, ffiEncryptBlocks, Nat.zero_div, mapBlocks]
  · intro buf hlen
    have hne : buf.length % A.blockSize ≠ 0 := by
      rw [hlen, Nat.mod_eq_of_lt (by omega)]
      omega
    simp [BlockCipher.encrypt_in_place, hne]

/-- C7 witness at the keyed test engine (block size 4). -/
theorem C7_boundary_witness :
    (keyedEngine testCipher tKey).encrypt_in_place [] = (.ok (), ([] : Bytes)) ∧
    (keyedEngine testCipher tKey).encrypt_in_place [0, 0, 0]
      = (.error .InvalidInputLength, [0, 0, 0]) :=
  ⟨(C7_boundary testCipher tKey (by decide) (by decide)).1,
    (C7_boundary testCipher tKey (by decide) (by decide)).2 [0, 0, 0] (by decide)⟩

/-- C8: the block size cached at construction is the algorithm's positive
block size, the accessor always succeeds with the cached value, and neither
`set_key` nor `clear` changes it (encryption and decryption take the engine
by shared reference and cannot change it at all). -/
theorem C8_block_size_stable (A : Algo) (c : BlockCipher) (k : Bytes) :
    (BlockCipher.new A).block_size = A.blockSize ∧
    0 < (BlockCipher.new A).block_size ∧
    c.block_size_fn = .ok c.block_size ∧
    (c.set_key k).2.block_size = c.block_size ∧
    c.clear.2.block_size = c.block_size := by
  refine ⟨rfl, A.blockSize_pos, rfl, ?_, rfl⟩
  cases h : ffiSetKey c.algo k with
  | ok sched => simp [BlockCipher.set_key, h]
  | error e => simp [BlockCipher.set_key, h]

/-- C10: the output of the copying variants depends only on the algorithm,
the cached block size and the key-schedule state, so two engines agreeing on
those produce identical results; and any successful output has exactly the
input's length. -/
theorem C10_deterministic (c₁ c₂ : BlockCipher) (input out : Bytes) :
    (c₁.algo = c₂.algo → c₁.block_size = c₂.block_size →
      c₁.key_schedule = c₂.key_schedule →
      c₁.encrypt_blocks input = c₂.encrypt_blocks input ∧
      c₁.decrypt_blocks input = c₂.decrypt_blocks input) ∧
    (WF c₁ → c₁.encrypt_blocks input = .ok out → out.length = input.length) ∧
    (WF c₁ → c₁.decrypt_blocks input = .ok out → out.length = input.length) := by
  refine ⟨?_, fun hwf hok => encrypt_blocks_ok_length c₁ input out hwf hok,
    fun hwf hok => decrypt_blocks_ok_length c₁ input out hwf hok⟩
  intro ha hb hk
  obtain ⟨a₁, b₁, mn₁, mx₁, md₁, ks₁⟩ := c₁
  obtain ⟨a₂, b₂, mn₂, mx₂, md₂, ks₂⟩ := c₂
  simp only at ha hb hk
  subst ha hb hk
  constructor <;>
    simp [BlockCipher.encrypt_blocks, BlockCipher.decrypt_blocks,
      BlockCipher.encrypt_in_place, BlockCipher.decrypt_in_place]

/-- C10 witness: the keyed test engine compared with itself, and the length
of the concrete one-block ciphertext. -/
theorem C10_deterministic_witness :
    tcK.encrypt_blocks tP = tcK.encrypt_blocks tP ∧
    ([6, 7, 8, 9] : Bytes).length = tP.length :=
  ⟨((C10_deterministic tcK tcK tP [6, 7, 8, 9]).1 rfl rfl rfl).1,
    (C10_deterministic tcK tcK tP [6, 7, 8, 9]).2.1 (by decide) (by decide)⟩

end Botan
